import Mathlib

/-!
Verification of the text-extraction engine and selection logic of `dblp.py`
(a DBLP BibTeX fetcher).  Python strings are embedded as `List Char`;
optional/absent values (`None`) as `Option`; the network retrieval
collaborator is passed in as an explicit oracle function.  All definitions
are direct translations of the corresponding Python functions.
-/

namespace Dblp

/-- Characters treated as whitespace by Python's `str.strip` and the regex
class `\s` (ASCII range: space, tab, newline, carriage return, vertical tab,
form feed). -/
def pyIsSpace (c : Char) : Bool :=
  c == ' ' || c == '\t' || c == '\n' || c == '\r' || c == '\x0b' || c == '\x0c'

/-- Python `str.strip()`: drop leading and trailing whitespace. -/
def pyStrip (s : List Char) : List Char :=
  ((s.dropWhile pyIsSpace).reverse.dropWhile pyIsSpace).reverse

/-- Loop body of `_extract_braced_value` (src/dblp.py lines 160-176): walk the
text after the opening brace tracking nesting `depth`, accumulating
characters; a closing brace at depth 0 ends the scan and returns the
accumulated value stripped; reaching the end of the text yields `none`. -/
def extractBracedGo : List Char → Nat → List Char → Option (List Char)
  | [], _, _ => none
  | c :: rest, depth, acc =>
    if c = '{' then extractBracedGo rest (depth + 1) (acc ++ [c])
    else if c = '}' then
      if depth = 0 then some (pyStrip acc)
      else extractBracedGo rest (depth - 1) (acc ++ [c])
    else extractBracedGo rest depth (acc ++ [c])

/-- Embedding of `_extract_braced_value` (src/dblp.py lines 156-176).  Returns
`none` unless the character at `start` is `{`; otherwise scans from
`start + 1`. -/
def extract_braced_value (text : List Char) (start : Nat) : Option (List Char) :=
  match text.drop start with
  | [] => none
  | c :: rest => if c = '{' then extractBracedGo rest 0 [] else none

/-- If every prefix of `s` has at most as many `}` as `d` plus its `{` count
(the running depth never goes negative) and the whole of `s` closes exactly
`d` levels net, then the scanner consumes `s`, hits the following `}` at
depth 0, and returns the accumulated text stripped. -/
lemma extractBracedGo_closes :
    ∀ (s : List Char) (d : Nat) (acc rest : List Char),
      (∀ p q : List Char, s = p ++ q → p.count '}' ≤ d + p.count '{') →
      s.count '}' = d + s.count '{' →
      extractBracedGo (s ++ '}' :: rest) d acc = some (pyStrip (acc ++ s)) := by
  intro s
  induction s with
  | nil =>
    intro d acc rest _ hbal
    simp only [List.count_nil] at hbal
    have hd : d = 0 := by omega
    subst hd
    simp [extractBracedGo]
  | cons c s2 ih =>
    intro d acc rest h1 hbal
    by_cases hc : c = '{'
    · subst hc
      show extractBracedGo ('{' :: (s2 ++ '}' :: rest)) d acc = _
      rw [extractBracedGo, if_pos rfl]
      have h1' : ∀ p q : List Char, s2 = p ++ q → p.count '}' ≤ (d + 1) + p.count '{' := by
        intro p q hpq
        have := h1 ('{' :: p) q (by rw [hpq]; rfl)
        simp [List.count_cons] at this <;> omega
      have hbal' : s2.count '}' = (d + 1) + s2.count '{' := by
        simp [List.count_cons] at hbal <;> omega
      rw [ih (d + 1) (acc ++ ['{']) rest h1' hbal']
      simp
    · by_cases hc2 : c = '}'
      · subst hc2
        have hd : 1 ≤ d := by
          have := h1 ['}'] s2 rfl
          simp [List.count_cons] at this <;> omega
        show extractBracedGo ('}' :: (s2 ++ '}' :: rest)) d acc = _
        rw [extractBracedGo, if_neg (by decide), if_pos rfl, if_neg (by omega)]
        have h1' : ∀ p q : List Char, s2 = p ++ q → p.count '}' ≤ (d - 1) + p.count '{' := by
          intro p q hpq
          have := h1 ('}' :: p) q (by rw [hpq]; rfl)
          simp [List.count_cons] at this <;> omega
        have hbal' : s2.count '}' = (d - 1) + s2.count '{' := by
          simp [List.count_cons] at hbal <;> omega
        rw [ih (d - 1) (acc ++ ['}']) rest h1' hbal']
        simp
      · show extractBracedGo (c :: (s2 ++ '}' :: rest)) d acc = _
        rw [extractBracedGo, if_neg hc, if_neg hc2]
        have h1' : ∀ p q : List Char, s2 = p ++ q → p.count '}' ≤ d + p.count '{' := by
          intro p q hpq
          have := h1 (c :: p) q (by rw [hpq]; rfl)
          simp [List.count_cons, hc, hc2] at this <;> omega
        have hbal' : s2.count '}' = d + s2.count '{' := by
          simp [List.count_cons, hc, hc2] at hbal <;> omega
        rw [ih d (acc ++ [c]) rest h1' hbal']
        simp

/-- If no prefix of `t` ever has more `}` than `d` plus its `{` count, the
scanner never meets a closing brace at depth 0 and runs off the end of the
text, yielding `none`. -/
lemma extractBracedGo_unterminated :
    ∀ (t : List Char) (d : Nat) (acc : List Char),
      (∀ p q : List Char, t = p ++ q → p.count '}' ≤ d + p.count '{') →
      extractBracedGo t d acc = none := by
  intro t
  induction t with
  | nil => intro d acc _; rfl
  | cons c t2 ih =>
    intro d acc h1
    by_cases hc : c = '{'
    · subst hc
      rw [extractBracedGo, if_pos rfl]
      refine ih (d + 1) (acc ++ ['{']) ?_
      intro p q hpq
      have := h1 ('{' :: p) q (by rw [hpq]; rfl)
      simp [List.count_cons] at this <;> omega
    · by_cases hc2 : c = '}'
      · subst hc2
        have hd : 1 ≤ d := by
          have := h1 ['}'] t2 rfl
          simp [List.count_cons] at this <;> omega
        rw [extractBracedGo, if_neg (by decide), if_pos rfl, if_neg (by omega)]
        refine ih (d - 1) (acc ++ ['}']) ?_
        intro p q hpq
        have := h1 ('}' :: p) q (by rw [hpq]; rfl)
        simp [List.count_cons] at this <;> omega
      · rw [extractBracedGo, if_neg hc, if_neg hc2]
        refine ih d (acc ++ [c]) ?_
        intro p q hpq
        have := h1 (c :: p) q (by rw [hpq]; rfl)
        simp [List.count_cons, hc, hc2] at this <;> omega

/-- Helper: convert the decidable take-based balance condition to the
append-based one used in the induction. -/
lemma balance_take_to_append (s : List Char) (d : Nat)
    (hs : ∀ i, i ≤ s.length → (s.take i).count '}' ≤ d + (s.take i).count '{') :
    ∀ p q : List Char, s = p ++ q → p.count '}' ≤ d + p.count '{' := by
  intro p q hpq
  have h1 := hs p.length (by rw [hpq]; simp)
  rw [hpq, List.take_left] at h1
  exact h1

/-- C1.  Brace-mode value scanning: with the character at `start` being `{`,
if the text continues with a balanced segment `s` (no prefix of `s` closes
more braces than it opens, and `s` is balanced overall) followed by a `}`,
the scanner returns `s` with internal braces intact, outer braces stripped
and surrounding whitespace trimmed; and whenever the remaining text never
reaches a `}` at depth 0, it returns `none` rather than a truncated value. -/
theorem extract_braced_value_spec (pre s rest t : List Char)
    (hs : ∀ i, i ≤ s.length → (s.take i).count '}' ≤ (s.take i).count '{')
    (hbal : s.count '}' = s.count '{')
    (ht : ∀ i, i ≤ t.length → (t.take i).count '}' ≤ (t.take i).count '{') :
    extract_braced_value (pre ++ '{' :: (s ++ '}' :: rest)) pre.length = some (pyStrip s)
    ∧ extract_braced_value (pre ++ '{' :: t) pre.length = none := by
  constructor
  · unfold extract_braced_value
    rw [List.drop_left]
    have h2 := extractBracedGo_closes s 0 [] rest
      (balance_take_to_append s 0 (by simpa using hs)) (by simpa using hbal)
    simpa using h2
  · unfold extract_braced_value
    rw [List.drop_left]
    have h2 := extractBracedGo_unterminated t 0 []
      (balance_take_to_append t 0 (by simpa using ht))
    simpa using h2

/-- Witness for C1 at a concrete input: scanning `{ a{b} }x` from index 0
returns `a{b}` (inner braces kept, trimmed), and scanning the unterminated
`{{a` returns `none`. -/
theorem extract_braced_value_spec_witness :
    extract_braced_value (([] : List Char) ++ '{' :: ([' ', 'a', '{', 'b', '}', ' '] ++ '}' :: ['x']))
        ([] : List Char).length
        = some (pyStrip [' ', 'a', '{', 'b', '}', ' '])
    ∧ extract_braced_value (([] : List Char) ++ '{' :: ['{', 'a']) ([] : List Char).length = none :=
  extract_braced_value_spec [] [' ', 'a', '{', 'b', '}', ' '] ['x'] ['{', 'a']
    (by decide) (by decide) (by decide)

/-- Loop body of `_extract_quoted_value` (src/dblp.py lines 183-191): walk the
text after the opening quote; `prev` is the character at the previous index
of the original text (initially the opening quote itself).  A `"` whose
predecessor is not a backslash ends the scan and returns the accumulated
value stripped; any other character (including an escaped quote) is
accumulated; reaching the end of the text yields `none`. -/
def extractQuotedGo : Char → List Char → List Char → Option (List Char)
  | _, [], _ => none
  | prev, c :: rest, acc =>
    if c = '"' ∧ prev ≠ '\\' then some (pyStrip acc)
    else extractQuotedGo c rest (acc ++ [c])

/-- Embedding of `_extract_quoted_value` (src/dblp.py lines 179-191).  Returns
`none` unless the character at `start` is `"`; otherwise scans from
`start + 1`. -/
def extract_quoted_value (text : List Char) (start : Nat) : Option (List Char) :=
  match text.drop start with
  | [] => none
  | c :: rest => if c = '"' then extractQuotedGo '"' rest [] else none

/-- Every `"` occurring in the list is immediately preceded by a backslash,
where `prev` is the character just before the list. -/
def allQuotesEscaped : Char → List Char → Bool
  | _, [] => true
  | prev, c :: rest => (!(c == '"') || (prev == '\\')) && allQuotesEscaped c rest

/-- If every quote inside `s` is escaped and the character just before the
closing quote (the last of `s`, or `prev` when `s` is empty) is not a
backslash, the scanner consumes all of `s` and terminates at the following
unescaped `"`, returning the accumulated text stripped. -/
lemma extractQuotedGo_closes :
    ∀ (s : List Char) (prev : Char) (acc rest : List Char),
      allQuotesEscaped prev s = true → s.getLastD prev ≠ '\\' →
      extractQuotedGo prev (s ++ '"' :: rest) acc = some (pyStrip (acc ++ s)) := by
  intro s
  induction s with
  | nil =>
    intro prev acc rest _ hl
    simp only [List.getLastD_nil] at hl
    show extractQuotedGo prev ('"' :: rest) acc = _
    rw [extractQuotedGo, if_pos ⟨rfl, hl⟩]
    simp
  | cons c s2 ih =>
    intro prev acc rest hq hl
    have hq1 : (!(c == '"') || (prev == '\\')) = true ∧ allQuotesEscaped c s2 = true := by
      simpa [allQuotesEscaped, Bool.and_eq_true] using hq
    have hl2 : s2.getLastD c ≠ '\\' := by
      rw [List.getLastD_cons] at hl
      exact hl
    show extractQuotedGo prev (c :: (s2 ++ '"' :: rest)) acc = _
    rw [extractQuotedGo]
    have hcond : ¬(c = '"' ∧ prev ≠ '\\') := by
      rcases Bool.or_eq_true _ _ |>.mp hq1.1 with h | h
      · have hne : ¬(c = '"') := by simpa using h
        exact fun hand => hne hand.1
      · have hp : prev = '\\' := by simpa using h
        exact fun hand => hand.2 hp
    rw [if_neg hcond, ih c (acc ++ [c]) rest hq1.2 hl2]
    simp

/-- If every quote in `t` is escaped, the scanner never terminates and runs
off the end of the text, yielding `none`. -/
lemma extractQuotedGo_unterminated :
    ∀ (t : List Char) (prev : Char) (acc : List Char),
      allQuotesEscaped prev t = true →
      extractQuotedGo prev t acc = none := by
  intro t
  induction t with
  | nil => intro prev acc _; rfl
  | cons c t2 ih =>
    intro prev acc hq
    have hq1 : (!(c == '"') || (prev == '\\')) = true ∧ allQuotesEscaped c t2 = true := by
      simpa [allQuotesEscaped, Bool.and_eq_true] using hq
    have hcond : ¬(c = '"' ∧ prev ≠ '\\') := by
      rcases Bool.or_eq_true _ _ |>.mp hq1.1 with h | h
      · have hne : ¬(c = '"') := by simpa using h
        exact fun hand => hne hand.1
      · have hp : prev = '\\' := by simpa using h
        exact fun hand => hand.2 hp
    rw [extractQuotedGo, if_neg hcond]
    exact ih c (acc ++ [c]) hq1.2

/-- C2 (amended).  Quote-mode value scanning: with the character at `start`
being `"`, the scanner accumulates characters until the first `"` not
immediately preceded by a backslash — never terminating at an escaped quote —
and returns the accumulated text trimmed of leading and trailing whitespace;
if no unescaped closing quote occurs before the end of the text it returns
`none`. -/
theorem extract_quoted_value_spec (pre s rest t : List Char)
    (hs : allQuotesEscaped '"' s = true)
    (hl : s.getLastD '"' ≠ '\\')
    (ht : allQuotesEscaped '"' t = true) :
    extract_quoted_value (pre ++ '"' :: (s ++ '"' :: rest)) pre.length = some (pyStrip s)
    ∧ extract_quoted_value (pre ++ '"' :: t) pre.length = none := by
  constructor
  · unfold extract_quoted_value
    rw [List.drop_left]
    have h2 := extractQuotedGo_closes s '"' [] rest hs hl
    simpa using h2
  · unfold extract_quoted_value
    rw [List.drop_left]
    have h2 := extractQuotedGo_unterminated t '"' [] ht
    simpa using h2

/-- Witness for C2 at a concrete input: the value `a\"b` contains an escaped
quote, which the scanner passes over, terminating only at the final
unescaped quote; and the unterminated text `a\"` yields `none`. -/
theorem extract_quoted_value_spec_witness :
    extract_quoted_value (([] : List Char) ++ '"' :: (['a', '\\', '"', 'b'] ++ '"' :: ['z']))
        ([] : List Char).length
        = some (pyStrip ['a', '\\', '"', 'b'])
    ∧ extract_quoted_value (([] : List Char) ++ '"' :: ['a', '\\', '"']) ([] : List Char).length
        = none :=
  extract_quoted_value_spec [] ['a', '\\', '"', 'b'] ['z'] ['a', '\\', '"']
    (by decide) (by decide) (by decide)

/-- Counterexample to C2 as stated: for the text `" x "` the characters
accumulated up to the terminating quote are `space, x, space`, but the code
returns them with surrounding whitespace stripped (src/dblp.py line 188
applies `.strip()`), so the result is `x`, not the accumulated text. -/
theorem extract_quoted_value_trims_counterexample :
    extract_quoted_value ['"', ' ', 'x', ' ', '"'] 0 = some ['x']
    ∧ extract_quoted_value ['"', ' ', 'x', ' ', '"'] 0 ≠ some [' ', 'x', ' '] := by
  constructor
  · rfl
  · decide

/-- ASCII lowercasing of one character, as performed by Python's
case-insensitive regex matching on ASCII field names. -/
def pyLower (c : Char) : Char :=
  if 65 ≤ c.toNat ∧ c.toNat ≤ 90 then Char.ofNat (c.toNat + 32) else c

/-- ASCII lowercasing of a string. -/
def lowerStr (s : List Char) : List Char := s.map pyLower

/-- One attempt of the regex `fieldName\s*=\s*([{"])` (compiled with
IGNORECASE) at position `i` of `text`, as tried left to right by
`re.search` in `extract_field_value` (src/dblp.py lines 196-197).  The
field name is matched case-insensitively, then any run of whitespace, a
literal `=`, another run of whitespace, and a single `{` or `"`.  On
success returns the index of the delimiter (`match.end() - 1`) together
with the delimiter character (`match.group(1)`). -/
def matchFieldAt (text field : List Char) (i : Nat) : Option (Nat × Char) :=
  let after := text.drop i
  if lowerStr (after.take field.length) = lowerStr field then
    let rest1 := after.drop field.length
    let ws1 := (rest1.takeWhile pyIsSpace).length
    match rest1.drop ws1 with
    | '=' :: rest2 =>
      let ws2 := (rest2.takeWhile pyIsSpace).length
      match rest2.drop ws2 with
      | c :: _ =>
        if c = '{' || c = '"' then some (i + field.length + ws1 + 1 + ws2, c) else none
      | [] => none
    | _ => none
  else none

/-- Left-to-right scan of `re.search`: try `matchFieldAt` at `i`, `i+1`, …
while fuel remains, returning the first success. -/
def findFieldGo (text field : List Char) : Nat → Nat → Option (Nat × Char)
  | 0, _ => none
  | fuel + 1, i =>
    match matchFieldAt text field i with
    | some r => some r
    | none => findFieldGo text field fuel (i + 1)

/-- First match of the field pattern anywhere in `text` (positions `0` to
`text.length`). -/
def findFieldIdx (text field : List Char) : Option (Nat × Char) :=
  findFieldGo text field (text.length + 1) 0

/-- Embedding of `extract_field_value` (src/dblp.py lines 194-204): find the
first case-insensitive occurrence of `fieldName\s*=\s*([{"])` and delegate
to the brace or quote scanner at the discovered delimiter. -/
def extract_field_value (text field : List Char) : Option (List Char) :=
  match findFieldIdx text field with
  | none => none
  | some (j, c) =>
    if c = '{' then extract_braced_value text j else extract_quoted_value text j

/-- Matching is determined by the lowercased field name alone. -/
lemma matchFieldAt_congr (text f1 f2 : List Char) (i : Nat)
    (h : lowerStr f1 = lowerStr f2) :
    matchFieldAt text f1 i = matchFieldAt text f2 i := by
  have hlen : f1.length = f2.length := by
    have := congrArg List.length h
    simpa [lowerStr] using this
  unfold matchFieldAt
  rw [h, hlen]

/-- The whole search is determined by the lowercased field name alone. -/
lemma findFieldGo_congr (text f1 f2 : List Char) (h : lowerStr f1 = lowerStr f2) :
    ∀ fuel i, findFieldGo text f1 fuel i = findFieldGo text f2 fuel i := by
  intro fuel
  induction fuel with
  | zero => intro i; rfl
  | succ n ih =>
    intro i
    rw [findFieldGo, findFieldGo, matchFieldAt_congr text f1 f2 i h]
    cases matchFieldAt text f2 i with
    | none => exact ih (i + 1)
    | some r => rfl

/-- A successful match needs at least the `=` character after position `i`,
so matches only happen at positions inside the text. -/
lemma matchFieldAt_some_le (text field : List Char) (i : Nat) (r : Nat × Char)
    (h : matchFieldAt text field i = some r) : i ≤ text.length := by
  by_contra hgt
  have hdrop : text.drop i = [] := by
    apply List.drop_eq_nil_of_le
    omega
  unfold matchFieldAt at h
  rw [hdrop] at h
  simp at h

/-- The scan returns the first position at which the pattern matches. -/
lemma findFieldGo_first (text field : List Char) :
    ∀ (fuel i0 i : Nat) (r : Nat × Char),
      matchFieldAt text field i = some r →
      i0 ≤ i → i < i0 + fuel →
      (∀ i2, i0 ≤ i2 → i2 < i → matchFieldAt text field i2 = none) →
      findFieldGo text field fuel i0 = some r := by
  intro fuel
  induction fuel with
  | zero => intro i0 i r _ _ hlt _; omega
  | succ n ih =>
    intro i0 i r hm hge hlt hnone
    rw [findFieldGo]
    by_cases h0 : i0 = i
    · subst h0
      rw [hm]
    · have hnone0 : matchFieldAt text field i0 = none := hnone i0 le_rfl (by omega)
      rw [hnone0]
      exact ih (i0 + 1) i r hm (by omega) (by omega) (fun i2 h2 h3 => hnone i2 (by omega) h3)

/-- C3.  Field lookup is case-insensitive: two field names with the same
ASCII lowercasing (such as `Year` and `year`) extract identical results from
any text; and only the first match of the pattern
`fieldName\s*=\s*(delimiter)` is used: if the pattern matches at position
`i` with delimiter `c` at index `j` and at no earlier position, the result
is exactly the value scanned at `j` in the mode selected by `c`. -/
theorem extract_field_value_spec (text f1 f2 : List Char)
    (h : lowerStr f1 = lowerStr f2) :
    extract_field_value text f1 = extract_field_value text f2
    ∧ (∀ (i j : Nat) (c : Char),
        matchFieldAt text f1 i = some (j, c) →
        (∀ i2, i2 < i → matchFieldAt text f1 i2 = none) →
        extract_field_value text f1 =
          (if c = '{' then extract_braced_value text j else extract_quoted_value text j)) := by
  constructor
  · unfold extract_field_value findFieldIdx
    rw [findFieldGo_congr text f1 f2 h]
  · intro i j c hm hnone
    have hle : i ≤ text.length := matchFieldAt_some_le text f1 i (j, c) hm
    have hfind : findFieldIdx text f1 = some (j, c) := by
      unfold findFieldIdx
      exact findFieldGo_first text f1 (text.length + 1) 0 i (j, c) hm (by omega) (by omega)
        (fun i2 _ h3 => hnone i2 h3)
    unfold extract_field_value
    rw [hfind]

/-- Witness for C3 at a concrete input: extracting `Year` and `year` from
`year = \x7b2020\x7d` agree, and the first (only) match at position 0 with
delimiter `{` at index 7 determines the result. -/
theorem extract_field_value_spec_witness :
    extract_field_value ("year = \x7b2020\x7d".toList) ("Year".toList)
        = extract_field_value ("year = \x7b2020\x7d".toList) ("year".toList)
    ∧ extract_field_value ("year = \x7b2020\x7d".toList) ("Year".toList)
        = (if ('{' : Char) = '{'
            then extract_braced_value ("year = \x7b2020\x7d".toList) 7
            else extract_quoted_value ("year = \x7b2020\x7d".toList) 7) :=
  ⟨(extract_field_value_spec ("year = \x7b2020\x7d".toList) ("Year".toList)
      ("year".toList) (by decide)).1,
   (extract_field_value_spec ("year = \x7b2020\x7d".toList) ("Year".toList)
      ("year".toList) (by decide)).2 0 7 '{' (by decide)
      (fun i2 h2 => absurd h2 (Nat.not_lt_zero i2))⟩

/-- C10.  Field-name matching is substring-based with no word boundary: in a
text containing only `booktitle = \x7bX\x7d` and no standalone `title`
field, extracting `title` matches inside `booktitle` and returns `X` rather
than `none`. -/
theorem extract_title_matches_inside_booktitle :
    extract_field_value ("booktitle = \x7bX\x7d".toList) ("title".toList) = some ['X'] := by
  decide

/-- Loop body of `re.sub(r"\s+", " ", value)`: replace every maximal run of
whitespace with a single space.  The flag records whether the previous
character was part of a whitespace run. -/
def collapseWsGo : Bool → List Char → List Char
  | _, [] => []
  | prevSpace, c :: rest =>
    if pyIsSpace c then
      if prevSpace then collapseWsGo true rest else ' ' :: collapseWsGo true rest
    else c :: collapseWsGo false rest

/-- Python `re.sub(r"\s+", " ", s)`. -/
def collapseWs (s : List Char) : List Char := collapseWsGo false s

/-- Python truthiness of a `str | None` value: `None` and the empty string
are falsy. -/
def truthy : Option (List Char) → Bool
  | none => false
  | some s => !s.isEmpty

/-- The module-level `FIELD_ORDER` list (src/dblp.py lines 13-24). -/
def FIELD_ORDER : List (List Char) :=
  ["author".toList, "title".toList, "journal".toList, "booktitle".toList,
   "series".toList, "volume".toList, "number".toList, "pages".toList,
   "year".toList, "doi".toList]

/-- The column width used by `render_entry` (src/dblp.py line 209):
`max(len(field) for field in FIELD_ORDER)`. -/
def render_width : Nat := (FIELD_ORDER.map List.length).foldl max 0

/-- Python `f"{name:<{width}}"`: left-justify to `width` with spaces. -/
def padName (name : List Char) (w : Nat) : List Char :=
  name ++ List.replicate (w - name.length) ' '

/-- One output line of `render_entry` (src/dblp.py lines 215-217):
two-space indent, the padded field name, ` = {`, the whitespace-collapsed
and stripped value, and `},`. -/
def fieldLine (name value : List Char) : List Char :=
  [' ', ' '] ++ padName name render_width ++ [' ', '=', ' ', '{']
    ++ pyStrip (collapseWs value) ++ ['}', ',']

/-- The per-field loop of `render_entry` (src/dblp.py lines 211-217): for
each name in order, skip it when its value is falsy (`None` or empty),
otherwise emit its line. -/
def renderFields (fields : List Char → Option (List Char)) :
    List (List Char) → List (List Char)
  | [] => []
  | name :: rest =>
    match fields name with
    | none => renderFields fields rest
    | some v =>
      if v.isEmpty then renderFields fields rest
      else fieldLine name v :: renderFields fields rest

/-- The list of output lines built by `render_entry` (src/dblp.py lines
207-218): a `%` comment line, the `@type{key,` header, one line per truthy
field in `FIELD_ORDER` order, and a closing `}`.  The field mapping is
modelled as a function (Python `fields.get`). -/
def render_lines (entry_type entry_key : List Char)
    (fields : List Char → Option (List Char)) : List (List Char) :=
  (['%'] :: (('@' :: entry_type) ++ '{' :: entry_key ++ [',']) ::
    renderFields fields FIELD_ORDER)
  ++ [['}']]

/-- Embedding of `render_entry` (src/dblp.py lines 207-219): the lines
joined with newlines (`"\n".join(lines)`). -/
def render_entry (entry_type entry_key : List Char)
    (fields : List Char → Option (List Char)) : List Char :=
  List.intercalate ['\n'] (render_lines entry_type entry_key fields)

/-- The per-field loop keeps exactly the truthy fields, in list order. -/
lemma renderFields_eq_filter (fields : List Char → Option (List Char)) :
    ∀ names : List (List Char),
      renderFields fields names
      = (names.filter (fun n => truthy (fields n))).map
          (fun n => fieldLine n ((fields n).getD [])) := by
  intro names
  induction names with
  | nil => rfl
  | cons n ns ih =>
    rw [renderFields, List.filter_cons]
    cases hf : fields n with
    | none => simpa [truthy] using ih
    | some v =>
      by_cases hv : v.isEmpty = true
      · simpa [truthy, hv] using ih
      · have hv2 : v.isEmpty = false := by simpa using hv
        simpa [truthy, hv2, hf] using ih

/-- C6.  Rendering omits absent or empty fields entirely (no line is
emitted for them) and emits the remaining fields in the fixed
`FIELD_ORDER`, independent of any ordering of the input mapping (which is
modelled as a function, so it carries no order); every field name is
left-justified to the common column width `render_width`, which equals the
length of the longest name in the fixed order (`booktitle`), regardless of
which fields are present; the rendered text is the lines joined by
newlines. -/
theorem render_entry_spec (entry_type entry_key : List Char)
    (fields : List Char → Option (List Char)) :
    render_lines entry_type entry_key fields
      = (['%'] :: (('@' :: entry_type) ++ '{' :: entry_key ++ [',']) ::
          (FIELD_ORDER.filter (fun n => truthy (fields n))).map
            (fun n => fieldLine n ((fields n).getD []))) ++ [['}']]
    ∧ FIELD_ORDER.all (fun n => (padName n render_width).length == render_width) = true
    ∧ render_width = ("booktitle".toList).length
    ∧ render_entry entry_type entry_key fields
        = List.intercalate ['\n'] (render_lines entry_type entry_key fields) := by
  refine ⟨?_, by decide, by decide, rfl⟩
  unfold render_lines
  rw [renderFields_eq_filter]

/-- The static journal abbreviation table `JOURNAL_EXPANSIONS`
(src/dblp.py lines 26-29). -/
def JOURNAL_EXPANSIONS : List (List Char × List Char) :=
  [("commun acm".toList, "Communications of the ACM".toList),
   ("j cryptol".toList, "Journal of Cryptology".toList)]

/-- Embedding of `_normalize_journal_name` (src/dblp.py lines 222-226):
strip braces, strip `.,:;`, collapse whitespace runs, strip, lowercase. -/
def normalize_journal_name (value : List Char) : List Char :=
  let no_braces := value.filter (fun c => !(c == '{' || c == '}'))
  let no_punct := no_braces.filter (fun c => !(c == '.' || c == ',' || c == ':' || c == ';'))
  lowerStr (pyStrip (collapseWs no_punct))

/-- Embedding of `expand_journal_name` (src/dblp.py lines 229-234): falsy
input (absent or empty) is returned unchanged; otherwise the normalized
name is looked up in the table, returning the expansion on a hit and the
original value on a miss. -/
def expand_journal_name : Option (List Char) → Option (List Char)
  | none => none
  | some s =>
    if s.isEmpty then some s
    else
      match List.lookup (normalize_journal_name s) JOURNAL_EXPANSIONS with
      | some full => some full
      | none => some s

/-- C9.  Journal-name expansion is idempotent on every value —
`expand(expand(v)) = expand(v)` — and on a lookup miss the original input
value is returned unmodified (normalization is for lookup only). -/
theorem expand_journal_name_idempotent (v : Option (List Char)) (s : List Char)
    (hmiss : List.lookup (normalize_journal_name s) JOURNAL_EXPANSIONS = none) :
    expand_journal_name (expand_journal_name v) = expand_journal_name v
    ∧ expand_journal_name (some s) = some s := by
  constructor
  · cases v with
    | none => rfl
    | some s0 =>
      by_cases h0 : s0.isEmpty
      · have h1 : expand_journal_name (some s0) = some s0 := by
          simp only [expand_journal_name]
          rw [if_pos h0]
        rw [h1, h1]
      · cases hlk : List.lookup (normalize_journal_name s0) JOURNAL_EXPANSIONS with
        | none =>
          have h1 : expand_journal_name (some s0) = some s0 := by
            simp only [expand_journal_name]
            rw [if_neg h0, hlk]
          rw [h1, h1]
        | some full =>
          have h1 : expand_journal_name (some s0) = some full := by
            simp only [expand_journal_name]
            rw [if_neg h0, hlk]
          rw [h1]
          have hfull : full = "Communications of the ACM".toList
              ∨ full = "Journal of Cryptology".toList := by
            unfold JOURNAL_EXPANSIONS at hlk
            rw [List.lookup] at hlk
            split at hlk
            · exact Or.inl (by simpa using hlk.symm)
            · rw [List.lookup] at hlk
              split at hlk
              · exact Or.inr (by simpa using hlk.symm)
              · simp [List.lookup] at hlk
          rcases hfull with h | h <;> subst h <;> decide
  · simp only [expand_journal_name]
    by_cases h0 : s.isEmpty
    · rw [if_pos h0]
    · rw [if_neg h0, hmiss]

/-- Witness for C9 at a concrete input: expanding `commun acm` yields the
full name and a second expansion leaves it fixed; the unknown name `xy` is
returned unmodified. -/
theorem expand_journal_name_idempotent_witness :
    expand_journal_name (expand_journal_name (some ("commun acm".toList)))
        = expand_journal_name (some ("commun acm".toList))
    ∧ expand_journal_name (some ['x', 'y']) = some ['x', 'y'] :=
  ⟨(expand_journal_name_idempotent (some ("commun acm".toList)) ['x', 'y'] (by decide)).1,
   (expand_journal_name_idempotent (some ("commun acm".toList)) ['x', 'y'] (by decide)).2⟩

/-- Python dict assignment `fields[k] = v` on the function model of the
field mapping. -/
def setField (fields : List Char → Option (List Char)) (k : List Char)
    (v : Option (List Char)) : List Char → Option (List Char) :=
  fun n => if n = k then v else fields n

/-- The backfill loop of `merge_crossref_fields` (src/dblp.py lines
250-252): for each name in order, if the field's current value is falsy,
set it to the value extracted from the crossref record. -/
def fillMissing (crossref_bibtex : List Char) :
    List (List Char) → (List Char → Option (List Char)) → (List Char → Option (List Char))
  | [], fields => fields
  | name :: rest, fields =>
    if truthy (fields name) then fillMissing crossref_bibtex rest fields
    else fillMissing crossref_bibtex rest
      (setField fields name (extract_field_value crossref_bibtex name))

/-- Embedding of `merge_crossref_fields` (src/dblp.py lines 237-253).  The
network retrieval `fetch_bibtex_entry` is modelled as an oracle
`fetch : key → Option text`; `none` stands for a raised exception of any
kind, which the `try/except` swallows by returning the fields unchanged. -/
def merge_crossref_fields (fetch : List Char → Option (List Char))
    (bibtex : List Char) (fields : List Char → Option (List Char)) :
    List Char → Option (List Char) :=
  if truthy (fields ("booktitle".toList)) || truthy (fields ("series".toList)) then fields
  else
    match extract_field_value bibtex ("crossref".toList) with
    | none => fields
    | some crossref =>
      if crossref.isEmpty then fields
      else
        match fetch crossref with
        | none => fields
        | some crossref_bibtex =>
          fillMissing crossref_bibtex
            ["booktitle".toList, "series".toList, "year".toList] fields

/-- The backfill loop never changes a field whose value is truthy. -/
lemma fillMissing_truthy (cb : List Char) :
    ∀ (names : List (List Char)) (fields : List Char → Option (List Char)) (n : List Char),
      truthy (fields n) = true → fillMissing cb names fields n = fields n := by
  intro names
  induction names with
  | nil => intro fields n _; rfl
  | cons name rest ih =>
    intro fields n h
    rw [fillMissing]
    by_cases hname : truthy (fields name) = true
    · rw [if_pos hname]
      exact ih fields n h
    · rw [if_neg hname]
      have hne : n ≠ name := by
        intro he
        rw [he] at h
        exact hname h
      have h2 : truthy ((setField fields name (extract_field_value cb name)) n) = true := by
        unfold setField
        rw [if_neg hne]
        exact h
      rw [ih _ n h2]
      unfold setField
      rw [if_neg hne]

/-- The backfill loop never touches a name outside its list. -/
lemma fillMissing_notmem (cb : List Char) :
    ∀ (names : List (List Char)) (fields : List Char → Option (List Char)) (n : List Char),
      n ∉ names → fillMissing cb names fields n = fields n := by
  intro names
  induction names with
  | nil => intro fields n _; rfl
  | cons name rest ih =>
    intro fields n h
    have hne : n ≠ name := fun he => h (by rw [he]; exact List.mem_cons_self name rest)
    have hrest : n ∉ rest := fun hm => h (List.mem_cons_of_mem name hm)
    rw [fillMissing]
    by_cases hname : truthy (fields name) = true
    · rw [if_pos hname]
      exact ih fields n hrest
    · rw [if_neg hname, ih _ n hrest]
      unfold setField
      rw [if_neg hne]

/-- Case analysis of `merge_crossref_fields` at function level: either it
returns the fields unchanged, or the oracle succeeded on a truthy crossref
key and the result is the backfill loop. -/
lemma merge_crossref_fields_cases (fetch : List Char → Option (List Char))
    (bibtex : List Char) (fields : List Char → Option (List Char)) :
    merge_crossref_fields fetch bibtex fields = fields
    ∨ ∃ crossref crossref_bibtex,
        fetch crossref = some crossref_bibtex
        ∧ merge_crossref_fields fetch bibtex fields
            = fillMissing crossref_bibtex
                ["booktitle".toList, "series".toList, "year".toList] fields := by
  unfold merge_crossref_fields
  split
  · exact Or.inl rfl
  · split
    · exact Or.inl rfl
    · rename_i crossref _
      split
      · exact Or.inl rfl
      · split
        · exact Or.inl rfl
        · rename_i crossref_bibtex hf
          exact Or.inr ⟨crossref, crossref_bibtex, hf, rfl⟩

/-- C4.  Crossref enrichment is best-effort and atomic on failure: whenever
fetching the crossref-referenced record fails (the oracle returns `none`,
standing for any raised exception), `merge_crossref_fields` returns the
original fields unchanged at every key, and no failure propagates (the
embedding is a total function). -/
theorem merge_crossref_fields_failure (fetch : List Char → Option (List Char))
    (bibtex : List Char) (fields : List Char → Option (List Char))
    (h : ∀ k, fetch k = none) (n : List Char) :
    merge_crossref_fields fetch bibtex fields n = fields n := by
  rcases merge_crossref_fields_cases fetch bibtex fields with heq | ⟨cr, cb, hf, _⟩
  · rw [heq]
  · rw [h cr] at hf
    cases hf

/-- Witness for C4 at a concrete input: with an always-failing oracle and a
text carrying a crossref field, the fields come back unchanged. -/
theorem merge_crossref_fields_failure_witness :
    merge_crossref_fields (fun _ => none) ("crossref = \x7bc1\x7d".toList)
        (fun _ => none) ("year".toList) = none :=
  merge_crossref_fields_failure (fun _ => none) ("crossref = \x7bc1\x7d".toList)
    (fun _ => none) (fun _ => rfl) ("year".toList)

/-- C5.  Crossref enrichment never overwrites present fields: the merge
returns the input unchanged when `booktitle` or `series` is already present
(truthy — per the data model, absent and empty both count as not present);
any field whose value is truthy keeps that exact value; and any field other
than `booktitle`, `series` and `year` is never written at all, whatever the
oracle answers. -/
theorem merge_crossref_fields_frame (fetch : List Char → Option (List Char))
    (bibtex : List Char) (fields : List Char → Option (List Char)) (n : List Char) :
    ((truthy (fields ("booktitle".toList)) || truthy (fields ("series".toList))) = true →
      merge_crossref_fields fetch bibtex fields n = fields n)
    ∧ (truthy (fields n) = true →
      merge_crossref_fields fetch bibtex fields n = fields n)
    ∧ (n ≠ "booktitle".toList → n ≠ "series".toList → n ≠ "year".toList →
      merge_crossref_fields fetch bibtex fields n = fields n) := by
  have hbk : ∀ h1 : (truthy (fields ("booktitle".toList))
      || truthy (fields ("series".toList))) = true,
      merge_crossref_fields fetch bibtex fields = fields := by
    intro h1
    unfold merge_crossref_fields
    rw [if_pos h1]
  refine ⟨fun h1 => by rw [hbk h1], ?_, ?_⟩
  · intro h1
    rcases merge_crossref_fields_cases fetch bibtex fields with heq | ⟨cr, cb, _, heq⟩
    · rw [heq]
    · rw [heq]
      exact fillMissing_truthy cb _ fields n h1
  · intro hb hs hy
    rcases merge_crossref_fields_cases fetch bibtex fields with heq | ⟨cr, cb, _, heq⟩
    · rw [heq]
    · rw [heq]
      refine fillMissing_notmem cb _ fields n ?_
      intro hm
      simp only [List.mem_cons, List.not_mem_nil, or_false] at hm
      rcases hm with h1 | h1 | h1
      · exact hb h1
      · exact hs h1
      · exact hy h1

/-- Witness for C5 at a concrete input: with every field present (truthy),
the merge changes nothing at `doi`, discharging all three hypotheses. -/
theorem merge_crossref_fields_frame_witness :
    merge_crossref_fields (fun _ => some ['z']) ("x".toList)
        (fun _ => some ['v']) ("doi".toList) = some ['v']
    ∧ merge_crossref_fields (fun _ => some ['z']) ("x".toList)
        (fun _ => some ['v']) ("doi".toList) = some ['v']
    ∧ merge_crossref_fields (fun _ => some ['z']) ("x".toList)
        (fun _ => some ['v']) ("doi".toList) = some ['v'] :=
  ⟨(merge_crossref_fields_frame (fun _ => some ['z']) ("x".toList)
      (fun _ => some ['v']) ("doi".toList)).1 (by decide),
   (merge_crossref_fields_frame (fun _ => some ['z']) ("x".toList)
      (fun _ => some ['v']) ("doi".toList)).2.1 (by decide),
   (merge_crossref_fields_frame (fun _ => some ['z']) ("x".toList)
      (fun _ => some ['v']) ("doi".toList)).2.2 (by decide) (by decide) (by decide)⟩

/-- Python `str.isdigit` for one ASCII character (code points 48-57). -/
def pyIsDigit (c : Char) : Bool := 48 ≤ c.toNat && c.toNat ≤ 57

/-- Python `str.isdigit`: non-empty and all digits. -/
def isDigitStr (s : List Char) : Bool := !s.isEmpty && s.all pyIsDigit

/-- Python `int` on a digit string. -/
def digitsToNat (s : List Char) : Nat :=
  s.foldl (fun a c => 10 * a + (c.toNat - 48)) 0

/-- Outcome of the candidate selection: `Selected` or `Cancelled`
(`KeyboardInterrupt` in the source). -/
inductive Choice (α : Type) where
  | selected (a : α)
  | cancelled
deriving DecidableEq

/-- One iteration of the input loop of `choose_with_numbers` (src/dblp.py
lines 79-90), applied to the already-defaulted `choice` string: a lowercased
`q` cancels; a digit string whose value minus one is a valid index selects
that hit; anything else falls through to re-reading (`recurse`). -/
def pyChooseStep {α : Type} [Inhabited α] (hits : List α) (choice : List Char)
    (recurse : Choice α) : Choice α :=
  if lowerStr choice = ['q'] then Choice.cancelled
  else if isDigitStr choice then
    if 0 ≤ ((digitsToNat choice : Int) - 1)
        ∧ ((digitsToNat choice : Int) - 1) < (hits.length : Int) then
      Choice.selected (hits.getD ((digitsToNat choice : Int) - 1).toNat hits.headI)
    else recurse
  else recurse

/-- Embedding of `choose_with_numbers` (src/dblp.py lines 75-90).  The
sequence of lines the user will type is an explicit list; exhausting it is
`EOFError`, which returns `hits[0]`.  Each line is stripped and defaulted
to `1` when blank, then processed by `pyChooseStep`; invalid input prints a
notice (not modelled) and reads the next line. -/
def choose_with_numbers {α : Type} [Inhabited α] (hits : List α) :
    List (List Char) → Choice α
  | [] => Choice.selected hits.headI
  | line :: rest =>
    pyChooseStep hits (if (pyStrip line).isEmpty then ['1'] else pyStrip line)
      (choose_with_numbers hits rest)

/-- ASCII lowercasing does not move digit characters. -/
lemma lowerStr_digits (s : List Char) (h : s.all pyIsDigit = true) :
    lowerStr s = s := by
  induction s with
  | nil => rfl
  | cons c cs ih =>
    rw [List.all_cons, Bool.and_eq_true] at h
    have hc : pyLower c = c := by
      unfold pyLower
      rw [if_neg]
      have := h.1
      simp [pyIsDigit] at this
      omega
    simp only [lowerStr, List.map_cons, hc]
    exact congrArg _ (ih h.2)

/-- The head with default is the head on a non-empty list. -/
lemma getD_zero_headI {α : Type} [Inhabited α] (hits : List α) :
    hits.getD 0 hits.headI = hits.headI := by
  cases hits with
  | nil => rfl
  | cons a l => rfl

/-- C7.  Numbered-prompt selection on a non-empty candidate list:
end-of-input selects candidate 1; a blank line selects candidate 1; a line
stripping to `q` (any case) cancels; a digit string with value `n` in
`[1, count]` selects `hits[n-1]`; a digit string with value `0` or above
`count` is rejected and the next line is read; any other non-blank,
non-cancel, non-digit line is likewise rejected and the next line is
read. -/
theorem choose_with_numbers_spec {α : Type} [Inhabited α] (hits : List α)
    (l : List Char) (rest : List (List Char)) (n : Nat) (h : hits ≠ []) :
    choose_with_numbers hits [] = Choice.selected hits.headI
    ∧ ((pyStrip l).isEmpty = true →
        choose_with_numbers hits (l :: rest) = Choice.selected hits.headI)
    ∧ (lowerStr (pyStrip l) = ['q'] →
        choose_with_numbers hits (l :: rest) = Choice.cancelled)
    ∧ (isDigitStr (pyStrip l) = true → digitsToNat (pyStrip l) = n →
        1 ≤ n → n ≤ hits.length →
        choose_with_numbers hits (l :: rest)
          = Choice.selected (hits.getD (n - 1) hits.headI))
    ∧ (isDigitStr (pyStrip l) = true → digitsToNat (pyStrip l) = n →
        (n = 0 ∨ hits.length < n) →
        choose_with_numbers hits (l :: rest) = choose_with_numbers hits rest)
    ∧ ((pyStrip l).isEmpty = false → lowerStr (pyStrip l) ≠ ['q'] →
        isDigitStr (pyStrip l) = false →
        choose_with_numbers hits (l :: rest) = choose_with_numbers hits rest) := by
  have hlen : 1 ≤ hits.length := by
    cases hits with
    | nil => exact absurd rfl h
    | cons a l2 => simp
  refine ⟨rfl, ?_, ?_, ?_, ?_, ?_⟩
  · intro hb
    rw [choose_with_numbers, if_pos hb]
    unfold pyChooseStep
    rw [if_neg (by decide), if_pos (by decide)]
    have h1 : digitsToNat ['1'] = 1 := by decide
    rw [h1]
    rw [if_pos (by constructor <;> omega)]
    norm_num
    cases hits with
    | nil => rfl
    | cons a l2 => simp [List.headI]
  · intro hq
    have hne : (pyStrip l).isEmpty = false := by
      cases hps : pyStrip l with
      | nil => rw [hps] at hq; simp [lowerStr] at hq
      | cons a as => rfl
    rw [choose_with_numbers, if_neg (by rw [hne]; exact Bool.false_ne_true)]
    unfold pyChooseStep
    rw [if_pos hq]
  · intro hd hn h1n hnle
    have hne : (pyStrip l).isEmpty = false := by
      have := hd
      unfold isDigitStr at this
      rw [Bool.and_eq_true] at this
      cases hps : (pyStrip l).isEmpty with
      | false => rfl
      | true => rw [hps] at this; simp at this
    have hall : (pyStrip l).all pyIsDigit = true := by
      have := hd
      unfold isDigitStr at this
      rw [Bool.and_eq_true] at this
      exact this.2
    have hql : lowerStr (pyStrip l) ≠ ['q'] := by
      rw [lowerStr_digits _ hall]
      intro he
      rw [he] at hd
      exact absurd hd (by decide)
    rw [choose_with_numbers, if_neg (by rw [hne]; exact Bool.false_ne_true)]
    unfold pyChooseStep
    rw [if_neg hql, if_pos hd, hn]
    rw [if_pos (by constructor <;> omega)]
    have h0 : ((n : Int) - 1).toNat = n - 1 := by omega
    rw [h0]
  · intro hd hn hout
    have hne : (pyStrip l).isEmpty = false := by
      have := hd
      unfold isDigitStr at this
      rw [Bool.and_eq_true] at this
      cases hps : (pyStrip l).isEmpty with
      | false => rfl
      | true => rw [hps] at this; simp at this
    have hall : (pyStrip l).all pyIsDigit = true := by
      have := hd
      unfold isDigitStr at this
      rw [Bool.and_eq_true] at this
      exact this.2
    have hql : lowerStr (pyStrip l) ≠ ['q'] := by
      rw [lowerStr_digits _ hall]
      intro he
      rw [he] at hd
      exact absurd hd (by decide)
    rw [choose_with_numbers, if_neg (by rw [hne]; exact Bool.false_ne_true)]
    unfold pyChooseStep
    rw [if_neg hql, if_pos hd, hn]
    rw [if_neg (by rintro ⟨ha, hb2⟩; omega)]
  · intro hne hq hd
    rw [choose_with_numbers, if_neg (by rw [hne]; exact Bool.false_ne_true)]
    unfold pyChooseStep
    rw [if_neg hq, if_neg (by rw [hd]; exact Bool.false_ne_true)]

/-- Witness for C7 at concrete inputs: with three candidates, end-of-input
selects the first, and typing ` 2 ` selects the second. -/
theorem choose_with_numbers_spec_witness :
    choose_with_numbers [10, 20, 30] ([] : List (List Char)) = Choice.selected 10
    ∧ choose_with_numbers [10, 20, 30] ([' ', '2', ' '] :: []) = Choice.selected 20 :=
  ⟨(choose_with_numbers_spec [10, 20, 30] [] [] 2 (by decide)).1,
   by
    have h2 := (choose_with_numbers_spec [10, 20, 30] [' ', '2', ' '] [] 2
      (by decide)).2.2.2.1 (by decide) (by decide) (by decide) (by decide)
    simpa using h2⟩

/-- Cursor move for `KEY_DOWN`/`j` (src/dblp.py line 110):
`idx = (idx + 1) % len(hits)`, with Python's nonnegative `%` modelled by
`Int.emod`. -/
def cursor_next (n idx : Nat) : Nat := (((idx : Int) + 1) % (n : Int)).toNat

/-- Cursor move for `KEY_UP`/`k` (src/dblp.py line 108):
`idx = (idx - 1) % len(hits)`, with Python's nonnegative `%` modelled by
`Int.emod`. -/
def cursor_prev (n idx : Nat) : Nat := (((idx : Int) - 1) % (n : Int)).toNat

/-- Input events of the curses selector loop (src/dblp.py lines 106-114). -/
inductive MenuKey where
  | up
  | down
  | confirm
  | cancel
  | other

/-- Result of one step of the selector loop. -/
inductive SelStep where
  | active (idx : Nat)
  | chosen (idx : Nat)
  | cancelledS
deriving DecidableEq

/-- One iteration of the `selector` key dispatch (src/dblp.py lines
106-114): up/down move the cursor with wraparound, enter returns the
current hit, escape/q cancels, any other key leaves the cursor in place. -/
def selector_step (n idx : Nat) : MenuKey → SelStep
  | MenuKey.up => SelStep.active (cursor_prev n idx)
  | MenuKey.down => SelStep.active (cursor_next n idx)
  | MenuKey.confirm => SelStep.chosen idx
  | MenuKey.cancel => SelStep.cancelledS
  | MenuKey.other => SelStep.active idx

/-- With positive `n`, the next move is `(idx + 1) % n` in natural
arithmetic. -/
lemma cursor_next_eq (n idx : Nat) (hn : 0 < n) :
    cursor_next n idx = (idx + 1) % n := by
  unfold cursor_next
  have h2 : ((idx : Int) + 1) = ((idx + 1 : Nat) : Int) := by push_cast; ring
  rw [h2, Int.ofNat_mod_ofNat]
  exact Int.toNat_natCast _

/-- With positive `n` and `idx < n`, the previous move is
`(idx + n - 1) % n` in natural arithmetic. -/
lemma cursor_prev_eq (n idx : Nat) (hn : 0 < n) :
    cursor_prev n idx = (idx + n - 1) % n := by
  unfold cursor_prev
  have h4 : ((idx + n - 1 : Nat) : Int) = (idx : Int) - 1 + (n : Int) * 1 := by
    push_cast [hn]
    omega
  have h3 : ((idx : Int) - 1) % (n : Int) = ((idx + n - 1 : Nat) : Int) % (n : Int) := by
    rw [h4, Int.add_mul_emod_self_left]
  rw [h3, Int.ofNat_mod_ofNat, Int.toNat_natCast]

/-- Iterating `cursor_next` adds the iteration count modulo `n`. -/
lemma cursor_next_iterate (n : Nat) (hn : 0 < n) :
    ∀ (k idx : Nat), idx < n → (cursor_next n)^[k] idx = (idx + k) % n := by
  intro k
  induction k with
  | zero =>
    intro idx hidx
    simp [Nat.mod_eq_of_lt hidx]
  | succ m ih =>
    intro idx hidx
    rw [Function.iterate_succ_apply, cursor_next_eq n idx hn]
    rw [ih ((idx + 1) % n) (Nat.mod_lt _ hn)]
    rw [Nat.mod_add_mod]
    congr 1
    omega

/-- C8.  Menu cursor movement is cyclic: with `n` candidates and cursor
`idx < n`, a "next" move yields cursor `(idx + 1) % n` and a "previous"
move `(idx - 1) % n` (written `(idx + n - 1) % n` in natural arithmetic);
both stay within `[0, n)`; and `n` consecutive "next" moves return the
cursor to its starting position. -/
theorem selector_cursor_cyclic (n idx : Nat) (hn : 0 < n) (hidx : idx < n) :
    selector_step n idx MenuKey.down = SelStep.active ((idx + 1) % n)
    ∧ selector_step n idx MenuKey.up = SelStep.active ((idx + n - 1) % n)
    ∧ cursor_next n idx < n
    ∧ cursor_prev n idx < n
    ∧ (cursor_next n)^[n] idx = idx := by
  refine ⟨?_, ?_, ?_, ?_, ?_⟩
  · unfold selector_step
    rw [cursor_next_eq n idx hn]
  · unfold selector_step
    rw [cursor_prev_eq n idx hn]
  · rw [cursor_next_eq n idx hn]
    exact Nat.mod_lt _ hn
  · rw [cursor_prev_eq n idx hn]
    exact Nat.mod_lt _ hn
  · rw [cursor_next_iterate n hn n idx hidx, Nat.add_mod_right]
    exact Nat.mod_eq_of_lt hidx

/-- Witness for C8 at a concrete input: with 3 candidates and cursor 1, the
moves and the three-fold cycle evaluate as stated. -/
theorem selector_cursor_cyclic_witness :
    selector_step 3 1 MenuKey.down = SelStep.active ((1 + 1) % 3)
    ∧ selector_step 3 1 MenuKey.up = SelStep.active ((1 + 3 - 1) % 3)
    ∧ cursor_next 3 1 < 3
    ∧ cursor_prev 3 1 < 3
    ∧ (cursor_next 3)^[3] 1 = 1 :=
  selector_cursor_cyclic 3 1 (by decide) (by decide)

end Dblp
